import Mathlib

/-!
Verification development for the ignore-rule resolution and composition
engine of `fastingest` (file `src/fastingest/ignore.py`).

Embedding conventions:
- Text (lines, patterns, path segments) is `List Char` (called `Str` here),
  so that all reasoning is ordinary list reasoning and all definitions are
  kernel-executable.
- Absolute, already-resolved posix paths are lists of segments
  (`AbsPath := List Str`); the filesystem root is `[]`.  `p.resolve()` in
  the Python source is the identity in this model because every path we
  manipulate is kept in canonical form.
- The filesystem is a finite map from absolute paths to file content:
  `none` means "no file here", `some none` means "a file exists but reading
  it fails", `some (some lines)` means "a readable file with these raw
  lines" (Python's `read().splitlines()`).
- Fallible Python operations (`relative_to`, `os.path.commonpath`) are
  embedded with `Option` / `Except`; a Python `try/except` around them
  becomes a `match`.
-/

namespace FastIngest

/-- Text: a Python `str` as a list of characters. -/
abbrev Str := List Char

/-- An absolute, resolved posix path as a list of path segments; `[]` is `/`. -/
abbrev AbsPath := List Str

/-- Filesystem model: `none` = no file, `some none` = unreadable file,
`some (some raw)` = readable file whose raw lines are `raw`. -/
abbrev FS := AbsPath → Option (Option (List Str))

/-- Python `str.strip()` (whitespace from both ends). -/
def pyStrip (s : Str) : Str :=
  ((s.dropWhile Char.isWhitespace).reverse.dropWhile Char.isWhitespace).reverse

/-- Python `str.lower()` (per-character lowering). -/
def pyLower (s : Str) : Str := s.map Char.toLower

/-- Python `PurePath.relative_to`: `relTo p base` is the list of segments of
`p` below `base`, or `none` when `p` is not `base` or a descendant of it
(in the source this raises `ValueError`). -/
def relTo (p base : AbsPath) : Option (List Str) :=
  if base.isPrefixOf p then some (p.drop base.length) else none

/-- Posix join of relative-path segments (`PurePath.as_posix` of a relative
path with at least zero segments; the empty list joins to the empty string,
the `"."` spelling is handled at use sites). -/
def joinSegs : List Str → Str
  | [] => []
  | [s] => s
  | s :: rest => s ++ '/' :: joinSegs rest

/-- Split a posix string on `'/'` (how a compiled pattern or a queried
relative path decomposes into segments). -/
def splitCh : Str → List Str
  | [] => [[]]
  | c :: cs =>
    if c = '/' then [] :: splitCh cs
    else
      match splitCh cs with
      | [] => [[c]]
      | h :: t => (c :: h) :: t

/-- The directory containing a file: `PurePath.parent` for our segment paths. -/
def parentDir (f : AbsPath) : AbsPath := f.dropLast

/-- `IGNORE_FILE_NAMES` from `ignore.py`: the fixed, ordered pair of
recognized ignore-file names. -/
def IGNORE_FILE_NAMES : List Str := [".gitignore".data, ".fiignore".data]

/-- Embeds `_read_lines` (ignore.py lines 9-21): read the file, returning
`[]` when it cannot be opened or decoded, then keep each line stripped of
surrounding whitespace, dropping blank lines and `#` comments. -/
def _read_lines (fs : FS) (p : AbsPath) : List Str :=
  match fs p with
  | some (some raw) =>
    raw.filterMap (fun line =>
      let s := pyStrip line
      if s = [] ∨ ['#'].isPrefixOf s then none else some s)
  | _ => []

/-- Embeds `_normalize_git_line` (ignore.py lines 23-49): strip a negation
marker, a leading `./`, and leading `/`; append `**` to a body ending in
`/`; prefix `**/` to a body with no separator; re-attach the marker. -/
def _normalize_git_line (line : Str) : Str :=
  let neg := ['!'].isPrefixOf line
  let b0 := if neg then line.drop 1 else line
  let b1 := if ['.', '/'].isPrefixOf b0 then b0.drop 2 else b0
  let b2 := b1.dropWhile (· = '/')
  let b3 := if b2.getLast? = some '/' then b2 ++ ['*', '*'] else b2
  let b4 := if '/' ∈ b3 then b3 else '*' :: '*' :: '/' :: b3
  if neg then '!' :: b4 else b4

/-- Longest common prefix of two segment lists. -/
def commonPrefix2 : AbsPath → AbsPath → AbsPath
  | a :: as, b :: bs => if a = b then a :: commonPrefix2 as bs else []
  | _, _ => []

/-- Python `os.path.commonpath` on resolved absolute posix paths: the
longest common segment prefix; `none` models the `ValueError` raised on an
empty sequence. -/
def commonpath : List AbsPath → Option AbsPath
  | [] => none
  | p :: ps => some (ps.foldl commonPrefix2 p)

/-- Embeds `_common_anchor` (ignore.py lines 51-59): the working directory
when no base directories were collected, otherwise `os.path.commonpath` of
the bases; an uncaught `commonpath` failure propagates as an error. -/
def _common_anchor (cwd : AbsPath) (dirs : List AbsPath) : Except String AbsPath :=
  if dirs.isEmpty then .ok cwd
  else
    match commonpath dirs with
    | some anc => .ok anc
    | none => .error "commonpath"

/-- Embeds `_rebase_pattern_to_anchor` (ignore.py lines 61-80): prefix the
pattern body (after any negation marker) with the posix-relative path from
`anchor` to `base` followed by `/`; when `base` equals `anchor` (relative
path `.`) or is not under `anchor` (`relative_to` raises), add no prefix. -/
def _rebase_pattern_to_anchor (pattern : Str) (base anchor : AbsPath) : Str :=
  let neg := ['!'].isPrefixOf pattern
  let body := if neg then pattern.drop 1 else pattern
  let pre : Str :=
    match relTo base anchor with
    | some [] => []
    | some segs => joinSegs segs ++ ['/']
    | none => []
  let rebased := pre ++ body
  if neg then '!' :: rebased else rebased

/-- Embeds `collect_ignore_files_along_path` (ignore.py lines 112-131):
walk from `start` down to `end_` (inclusive) when `end_` is under `start`,
collecting recognized ignore-file names at each level, top to bottom. -/
def collect_ignore_files_along_path (fs : FS) (start end_ : AbsPath) : List AbsPath :=
  match relTo end_ start with
  | none => []
  | some rel =>
    let dirs := (List.range (rel.length + 1)).map (fun i => start ++ rel.take i)
    dirs.flatMap (fun d =>
      IGNORE_FILE_NAMES.filterMap (fun nm =>
        let p := d ++ [nm]
        if (fs p).isSome then some p else none))

/-- Embeds `collect_ignore_files_from_ancestors` (ignore.py lines 133-152):
collect recognized ignore-file names from the filesystem root down to
`dir`, top to bottom. -/
def collect_ignore_files_from_ancestors (fs : FS) (dir : AbsPath) : List AbsPath :=
  let dirs := (List.range (dir.length + 1)).map (fun i => dir.take i)
  dirs.flatMap (fun d =>
    IGNORE_FILE_NAMES.filterMap (fun nm =>
      let p := d ++ [nm]
      if (fs p).isSome then some p else none))

/-- Modelled from the spec: the repository compiles its pattern list with
`PathSpec.from_lines("gitwildmatch", ...)` from the external `pathspec`
dependency, whose source is not part of this repository.  Per §4.4 the
engine implements gitignore-style matching; this helper is the
"zero-or-more" closure used by `*` and `**`: try the continuation on every
suffix of the input. -/
def orSuffixes (k : List α → Bool) : List α → Bool
  | [] => k []
  | c :: cs => k (c :: cs) || orSuffixes k cs

/-- Modelled from the spec: single-segment wildcard matching of the
external gitwildmatch engine (§6: lines may use `*`, `?` and `/`); `*`
matches any character run within a segment, `?` a single character. -/
def charsMatch : Str → Str → Bool
  | [], s => s.isEmpty
  | p :: ps, s =>
    if p = '*' then orSuffixes (fun t => charsMatch ps t) s
    else
      match s with
      | [] => false
      | c :: cs =>
        if p = '?' then charsMatch ps cs
        else if p = c then charsMatch ps cs else false

/-- Modelled from the spec: segment-level matching of the external
gitwildmatch engine; a `**` segment matches any (possibly empty) run of
path segments (§4.2: the appended `**` makes the pattern "match the
directory and everything beneath it"; the prefixed `**/` makes a bare mask
"match at any depth"). -/
def segsMatch : List Str → List Str → Bool
  | [], qs => qs.isEmpty
  | p :: ps, qs =>
    if p = ['*', '*'] then orSuffixes (fun t => segsMatch ps t) qs
    else
      match qs with
      | [] => false
      | q :: qs' => charsMatch p q && segsMatch ps qs'

/-- One compiled gitwildmatch pattern: its negation flag and the `/`-split
segments of its body. -/
structure CompiledPattern where
  neg : Bool
  segs : List Str
deriving DecidableEq, Repr

/-- Modelled from the spec: compilation of one pattern line by the external
engine — detect the `!` marker and split the body on `/`. -/
def compileLine (pat : Str) : CompiledPattern :=
  let neg := ['!'].isPrefixOf pat
  let body := if neg then pat.drop 1 else pat
  ⟨neg, splitCh body⟩

/-- Modelled from the spec: `PathSpec.match_file` semantics per §4.4 —
"last-matching pattern wins; a later negated pattern un-ignores a path
matched by an earlier pattern". -/
def specIgnores (pats : List CompiledPattern) (pathSegs : List Str) : Bool :=
  pats.foldl (fun acc p => if segsMatch p.segs pathSegs then !p.neg else acc) false

/-- The posix string of a path relative to the anchor: `PurePath.as_posix`
spells the empty relative path as `"."`. -/
def relStr (segs : List Str) : Str :=
  if segs.isEmpty then ['.'] else joinSegs segs

/-- Modelled from the spec: evaluating the compiled pattern set on the
relative posix path of a candidate. -/
def engineMatch (pats : List CompiledPattern) (rel : Str) : Bool :=
  specIgnores pats (splitCh rel)

/-- Embeds class `CompositeIgnore` (ignore.py lines 82-110): the compiled
pattern set, the discovered ignore files kept for diagnostics, the common
anchor, and the memoization cache keyed by relative-path strings. -/
structure CompositeIgnore where
  spec : List CompiledPattern
  all_files : List AbsPath
  anchor : AbsPath
  cache : List (Str × Bool)
deriving DecidableEq, Repr

/-- Lookup in the memoization cache (`self._cache.get(key)`). -/
def cacheGet (c : List (Str × Bool)) (k : Str) : Option Bool :=
  (c.find? (fun kv => kv.1 == k)).map (·.2)

/-- Embeds `CompositeIgnore.matches` (ignore.py lines 93-110): resolve the
query path relative to the anchor, returning `false` when that fails;
otherwise answer from the cache, or evaluate the compiled spec and cache
the result.  The updated object is returned alongside the boolean because
the cache is mutable state. -/
def CompositeIgnore.matches (m : CompositeIgnore) (p : AbsPath) : Bool × CompositeIgnore :=
  match relTo p m.anchor with
  | none => (false, m)
  | some segs =>
    let key := relStr segs
    match cacheGet m.cache key with
    | some b => (b, m)
    | none =>
      let val := engineMatch m.spec key
      (val, { m with cache := (key, val) :: m.cache })

/-- Python `Path(g_param).resolve()` for the override string: split on `/`,
dropping empty and `.` segments, and resolve non-absolute strings against
the working directory (`..` processing is not modelled; no discovered path
in this development contains `..`). -/
def pathFromString (cwd : AbsPath) (s : Str) : AbsPath :=
  let segs := (splitCh s).filter (fun seg => ¬(seg = [] ∨ seg = ['.']))
  if s.head? = some '/' then segs else cwd ++ segs

/-- The `g_param is not None and g_param.strip().lower() == "false"` test at
the top of `build_composite_ignore` (ignore.py line 170). -/
def isFalseParam (g_param : Option Str) : Bool :=
  match g_param with
  | some g => pyLower (pyStrip g) == "false".data
  | none => false

/-- The ignore-file discovery of `build_composite_ignore` (ignore.py lines
173-182): a non-empty override string switches to ancestor discovery from
that path (`if g_param:` — the empty string is falsy); otherwise walk from
the working directory down to the target when the target is inside it, and
up from the target's ancestors when not. -/
def discover_files (fs : FS) (target_dir cwd : AbsPath) (g_param : Option Str) :
    List AbsPath :=
  match g_param with
  | some g =>
    if g ≠ [] then collect_ignore_files_from_ancestors fs (pathFromString cwd g)
    else
      match relTo target_dir cwd with
      | some _ => collect_ignore_files_along_path fs cwd target_dir
      | none => collect_ignore_files_from_ancestors fs target_dir
  | none =>
    match relTo target_dir cwd with
    | some _ => collect_ignore_files_along_path fs cwd target_dir
    | none => collect_ignore_files_from_ancestors fs target_dir

/-- The read-normalize-rebase-compile loop of `build_composite_ignore`
(ignore.py lines 193-202): every collected file contributes its normalized,
rebased patterns, concatenated in discovery order. -/
def compile_combined (fs : FS) (files : List AbsPath) (anchor : AbsPath) :
    List CompiledPattern :=
  (files.flatMap (fun f =>
    (_read_lines fs f).map (fun s =>
      _rebase_pattern_to_anchor (_normalize_git_line s) (parentDir f) anchor))).map compileLine

/-- Embeds `build_composite_ignore` (ignore.py lines 154-203): the
`"false"` override disables ignores; otherwise the discovered files are
read, normalized, rebased to the common anchor of their parent
directories, and compiled in discovery order into one matcher; no files
means no matcher. -/
def build_composite_ignore (fs : FS) (target_dir cwd : AbsPath) (g_param : Option Str) :
    Except String (Option CompositeIgnore) :=
  if isFalseParam g_param then .ok none
  else
    let files := discover_files fs target_dir cwd g_param
    if files.isEmpty then .ok none
    else
      match _common_anchor cwd (files.map parentDir) with
      | .error e => .error e
      | .ok anchor => .ok (some ⟨compile_combined fs files anchor, files, anchor, []⟩)

/-- The caller-facing predicate from `core.py` (`list_included_files`,
lines 87 and 95): `if ignore and ignore.matches(p)` — a missing matcher
never ignores anything. -/
def isIgnoredPred (m : Option CompositeIgnore) (p : AbsPath) : Bool :=
  match m with
  | none => false
  | some ci => (ci.matches p).1

/-- Runs the build and treats the (proved unreachable) error channel as "no
matcher", exposing the optional matcher like the Python caller sees it. -/
def runBuild (fs : FS) (target_dir cwd : AbsPath) (g_param : Option Str) :
    Option CompositeIgnore :=
  match build_composite_ignore fs target_dir cwd g_param with
  | .ok r => r
  | .error _ => none

/-! ### Supporting lemmas -/

theorem orSuffixes_iff (k : List α → Bool) (l : List α) :
    orSuffixes k l = true ↔ ∃ t, t <:+ l ∧ k t = true := by
  induction l with
  | nil => simp [orSuffixes]
  | cons c cs ih =>
    simp [orSuffixes, ih, List.suffix_cons_iff, or_and_right, exists_or]

theorem charsMatch_refl (s : Str) (h : ∀ c ∈ s, c ≠ '*' ∧ c ≠ '?') :
    charsMatch s s = true := by
  induction s with
  | nil => rfl
  | cons c cs ih =>
    have h1 : c ≠ '*' := (h c (by simp)).1
    have h2 : c ≠ '?' := (h c (by simp)).2
    simp only [charsMatch, h1, if_false, h2, ite_false, if_pos rfl]
    exact ih fun d hd => h d (by simp [hd])

/-- A path segment with no wildcard character, no separator and no negation
marker: matched only literally by the engine. -/
def plainSeg (s : Str) : Prop :=
  s ≠ [] ∧ ∀ c ∈ s, c ≠ '!' ∧ c ≠ '*' ∧ c ≠ '?' ∧ c ≠ '/'

instance : DecidablePred plainSeg := fun s => by
  unfold plainSeg; exact inferInstance

theorem segsMatch_refl (l : List Str) (h : ∀ s ∈ l, plainSeg s) :
    segsMatch l l = true := by
  induction l with
  | nil => rfl
  | cons p ps ih =>
    have hp := h p (by simp)
    have hne : p ≠ ['*', '*'] := fun he =>
      absurd rfl ((hp.2 '*' (he ▸ by simp)).2.1)
    simp only [segsMatch, hne, ite_false, Bool.and_eq_true]
    exact ⟨charsMatch_refl p fun c hc => ⟨(hp.2 c hc).2.1, (hp.2 c hc).2.2.1⟩,
      ih fun s hs => h s (by simp [hs])⟩

theorem segsMatch_ss_right {ps qs : List Str} (h : segsMatch ps qs = true)
    (rest : List Str) : segsMatch (ps ++ [['*', '*']]) (qs ++ rest) = true := by
  induction ps generalizing qs rest with
  | nil =>
    have hq : qs = [] := by simpa [segsMatch] using h
    subst hq
    simp only [List.nil_append, segsMatch, ite_true]
    exact (orSuffixes_iff _ _).mpr ⟨[], List.nil_suffix, rfl⟩
  | cons p ps ih =>
    by_cases hp : p = ['*', '*']
    · subst hp
      simp only [segsMatch, ite_true] at h
      obtain ⟨t, hts, hkt⟩ := (orSuffixes_iff _ _).mp h
      obtain ⟨u, hu⟩ := hts
      simp only [List.cons_append, segsMatch, ite_true]
      refine (orSuffixes_iff _ _).mpr ⟨t ++ rest, ⟨u, ?_⟩, ih hkt rest⟩
      rw [← List.append_assoc, hu]
    · cases qs with
      | nil => simp [segsMatch, hp] at h
      | cons q qs' =>
        simp only [segsMatch, hp, ite_false, Bool.and_eq_true] at h
        simp only [List.cons_append, segsMatch, hp, ite_false, Bool.and_eq_true]
        exact ⟨h.1, ih h.2 rest⟩

theorem segsMatch_ss_left {ps qs : List Str} (h : segsMatch ps qs = true)
    (dirs : List Str) : segsMatch (['*', '*'] :: ps) (dirs ++ qs) = true := by
  simp only [segsMatch, ite_true]
  exact (orSuffixes_iff _ _).mpr ⟨qs, List.suffix_append dirs qs, h⟩

theorem splitCh_no_slash (s : Str) (h : '/' ∉ s) : splitCh s = [s] := by
  induction s with
  | nil => rfl
  | cons c cs ih =>
    have hc : c ≠ '/' := fun e => h (by simp [e])
    have hcs := ih fun hm => h (by simp [hm])
    simp [splitCh, hc, hcs]

theorem splitCh_append_slash (xs ys : Str) (h : '/' ∉ xs) :
    splitCh (xs ++ '/' :: ys) = xs :: splitCh ys := by
  induction xs with
  | nil => simp [splitCh]
  | cons c cs ih =>
    have hc : c ≠ '/' := fun e => h (by simp [e])
    have hcs := ih fun hm => h (by simp [hm])
    simp [splitCh, hc, hcs]

theorem joinSegs_append_one (dir : List Str) (x : Str) (h : dir ≠ []) :
    joinSegs (dir ++ [x]) = joinSegs dir ++ '/' :: x := by
  induction dir with
  | nil => exact absurd rfl h
  | cons s rest ih =>
    cases rest with
    | nil => simp [joinSegs]
    | cons d rest' =>
      have hih := ih (by simp)
      simp only [List.cons_append, List.append_eq] at hih ⊢
      simp only [joinSegs, hih, List.append_assoc, List.cons_append]

theorem splitCh_joinSegs (dir : List Str) (h1 : dir ≠ [])
    (h2 : ∀ s ∈ dir, '/' ∉ s) : splitCh (joinSegs dir) = dir := by
  induction dir with
  | nil => exact absurd rfl h1
  | cons s rest ih =>
    cases rest with
    | nil => simpa [joinSegs] using splitCh_no_slash s (h2 s (by simp))
    | cons d rest' =>
      have hrec := ih (by simp) fun t ht => h2 t (by simp [ht])
      simp only [joinSegs]
      rw [splitCh_append_slash _ _ (h2 s (by simp)), hrec]

theorem isPrefixOf_self {α : Type _} [BEq α] [LawfulBEq α] (l : List α) :
    l.isPrefixOf l = true := by
  induction l with
  | nil => rfl
  | cons a as ih => simp [List.isPrefixOf, ih]

theorem relTo_self (p : AbsPath) : relTo p p = some [] := by
  simp [relTo, isPrefixOf_self]

theorem bang_isPrefixOf_cons (c : Char) (cs : Str) :
    List.isPrefixOf ['!'] (c :: cs) = ('!' == c) := by
  simp [List.isPrefixOf]

theorem mem_of_getLast?_eq {α : Type _} {l : List α} {a : α}
    (h : l.getLast? = some a) : a ∈ l := by
  induction l with
  | nil => simp [List.getLast?] at h
  | cons c cs ih =>
    cases cs with
    | nil => simp [List.getLast?] at h; simp [h]
    | cons d ds =>
      rw [List.getLast?_cons_cons] at h
      exact List.mem_cons_of_mem c (ih h)

theorem pyStrip_eq_rdrop (s : Str) :
    pyStrip s = List.rdropWhile Char.isWhitespace (s.dropWhile Char.isWhitespace) := rfl

theorem head?_dropWhile_false {α : Type _} (p : α → Bool) (l : List α) (c : α)
    (h : (l.dropWhile p).head? = some c) : p c = false := by
  induction l with
  | nil => simp [List.dropWhile] at h
  | cons a as ih =>
    rw [List.dropWhile_cons] at h
    by_cases hpa : p a
    · rw [if_pos hpa] at h
      exact ih h
    · rw [if_neg hpa] at h
      simp only [List.head?_cons, Option.some.injEq] at h
      rw [← h]
      exact Bool.of_not_eq_true hpa

theorem dropWhile_eq_self_of_head? {α : Type _} (p : α → Bool) (l : List α)
    (h : ∀ c, l.head? = some c → p c = false) : l.dropWhile p = l := by
  cases l with
  | nil => rfl
  | cons a as => rw [List.dropWhile_cons, h a rfl]; simp

theorem pyStrip_idem (s : Str) : pyStrip (pyStrip s) = pyStrip s := by
  rw [pyStrip_eq_rdrop, pyStrip_eq_rdrop]
  have hdw : (List.rdropWhile Char.isWhitespace
      (s.dropWhile Char.isWhitespace)).dropWhile Char.isWhitespace
      = List.rdropWhile Char.isWhitespace (s.dropWhile Char.isWhitespace) := by
    apply dropWhile_eq_self_of_head?
    intro c hc
    obtain ⟨t, ht⟩ := List.rdropWhile_prefix Char.isWhitespace
      (s.dropWhile Char.isWhitespace)
    have ha : (s.dropWhile Char.isWhitespace).head? = some c := by
      rw [← ht]
      cases hxe : List.rdropWhile Char.isWhitespace (s.dropWhile Char.isWhitespace) with
      | nil => rw [hxe] at hc; simp at hc
      | cons d ds =>
        rw [hxe] at hc
        simp only [List.head?_cons, Option.some.injEq] at hc
        simp [hc]
    exact head?_dropWhile_false Char.isWhitespace s c ha
  rw [hdw, List.rdropWhile_idempotent]

theorem bang_shape (pat : Str) (hb : List.isPrefixOf ['!'] pat = true) :
    pat = '!' :: pat.drop 1 := by
  cases pat with
  | nil => simp [List.isPrefixOf] at hb
  | cons c cs =>
    rw [bang_isPrefixOf_cons] at hb
    rw [beq_iff_eq.mp hb]
    rfl

theorem dotSlash_isPrefixOf_false (body : Str) (h : '/' ∉ body) :
    List.isPrefixOf ['.', '/'] body = false := by
  cases body with
  | nil => rfl
  | cons c cs =>
    cases cs with
    | nil => simp [List.isPrefixOf]
    | cons d ds =>
      have hd : d ≠ '/' := fun e => h (by simp [e])
      have hd' : (('/' : Char) == d) = false :=
        beq_eq_false_iff_ne.mpr fun e => hd e.symm
      simp [List.isPrefixOf, hd']

theorem dropWhile_slash_eq_self (body : Str) (h : body.head? ≠ some '/') :
    body.dropWhile (· = '/') = body := by
  apply dropWhile_eq_self_of_head?
  intro c hc
  have : c ≠ '/' := fun e => h (by rw [hc, e])
  simp [this]

theorem _common_anchor_ok (cwd : AbsPath) (dirs : List AbsPath) (h : dirs ≠ []) :
    ∃ a, _common_anchor cwd dirs = .ok a := by
  cases dirs with
  | nil => exact absurd rfl h
  | cons d ds => exact ⟨ds.foldl commonPrefix2 d, rfl⟩

theorem bang_join (s : Str) (rest : List Str) (h1 : s ≠ [])
    (h2 : s.head? ≠ some '!') :
    List.isPrefixOf ['!'] (joinSegs (s :: rest)) = false := by
  obtain ⟨c, cs, rfl⟩ : ∃ c cs, s = c :: cs := by
    cases s with
    | nil => exact absurd rfl h1
    | cons c cs => exact ⟨c, cs, rfl⟩
  have hc : ('!' == c) = false :=
    beq_eq_false_iff_ne.mpr fun e => h2 (by rw [List.head?_cons, ← e])
  cases rest with
  | nil => rw [show joinSegs [c :: cs] = c :: cs from rfl, bang_isPrefixOf_cons, hc]
  | cons d ds =>
    rw [show joinSegs ((c :: cs) :: d :: ds) = (c :: cs) ++ '/' :: joinSegs (d :: ds)
      from rfl, List.cons_append, bang_isPrefixOf_cons, hc]

theorem head?_ne_of_not_mem {a : α} {l : List α} (h : a ∉ l) : l.head? ≠ some a := by
  cases l with
  | nil => simp
  | cons c cs =>
    simp only [List.head?_cons, ne_eq, Option.some.injEq]
    exact fun e => h (by simp [e])

/-! ### Claim theorems -/

/-- Scenario filesystem for the layered-override scenario: `/proj/.gitignore`
holds the single line `*.log` and `/proj/src/.gitignore` holds the single
line `!keep.log`. -/
def c1_fs : FS := fun p =>
  if p = ["proj".data, ".gitignore".data] then some (some ["*.log".data])
  else if p = ["proj".data, "src".data, ".gitignore".data] then
    some (some ["!keep.log".data])
  else none

/-- C1: with working directory `/proj` and target `/proj/src`, the composite
matcher built with no override exists and ignores `/proj/src/app.log`, does
not ignore `/proj/src/keep.log`, and ignores `/proj/other.log` — patterns
compose in discovery order (outer file first) and the later negated pattern
from the deeper file un-ignores a path matched by the earlier pattern. -/
theorem claim_C1 :
    (runBuild c1_fs ["proj".data, "src".data] ["proj".data] none).isSome = true ∧
    isIgnoredPred (runBuild c1_fs ["proj".data, "src".data] ["proj".data] none)
      ["proj".data, "src".data, "app.log".data] = true ∧
    isIgnoredPred (runBuild c1_fs ["proj".data, "src".data] ["proj".data] none)
      ["proj".data, "src".data, "keep.log".data] = false ∧
    isIgnoredPred (runBuild c1_fs ["proj".data, "src".data] ["proj".data] none)
      ["proj".data, "other.log".data] = true := by
  decide

/-- C2: the build never surfaces an error for any inputs, and when anchor
computation cannot produce a common ancestor (the empty base list, where
`os.path.commonpath` would raise), `_common_anchor` degrades to the working
directory instead. -/
theorem claim_C2 :
    (∀ (fs : FS) (target cwd : AbsPath) (g : Option Str),
      ∃ r, build_composite_ignore fs target cwd g = .ok r) ∧
    (∀ cwd : AbsPath, _common_anchor cwd [] = .ok cwd) := by
  constructor
  · intro fs target cwd g
    cases hfp : isFalseParam g with
    | true => exact ⟨none, by simp [build_composite_ignore, hfp]⟩
    | false =>
      cases hfiles : discover_files fs target cwd g with
      | nil => exact ⟨none, by simp [build_composite_ignore, hfp, hfiles]⟩
      | cons f fsd =>
        obtain ⟨a, ha⟩ := _common_anchor_ok cwd ((f :: fsd).map parentDir) (by simp)
        rw [List.map_cons] at ha
        exact ⟨some ⟨compile_combined fs (f :: fsd) a, f :: fsd, a, []⟩,
          by simp [build_composite_ignore, hfp, hfiles, ha]⟩
  · intro cwd
    rfl

/-- C3: a line whose body ends in `/` is normalized by appending the
two-character suffix `**` (negation marker preserved, nothing else
changed), and a compiled pattern of the shape `dir/**` matches the
directory path itself (`rest = []`) as well as every descendant path. -/
theorem claim_C3 :
    (∀ (neg : Bool) (body : Str),
      body.getLast? = some '/' →
      (neg = false → body.head? ≠ some '!') →
      body.head? ≠ some '/' →
      List.isPrefixOf ['.', '/'] body = false →
      _normalize_git_line ((if neg then ['!'] else []) ++ body)
        = (if neg then ['!'] else []) ++ body ++ ['*', '*']) ∧
    (∀ (dir rest : List Str), dir ≠ [] → (∀ s ∈ dir, plainSeg s) →
      specIgnores [compileLine (joinSegs dir ++ ['/', '*', '*'])]
        (dir ++ rest) = true) := by
  constructor
  · intro neg body hlast hbang hhead hdot
    have hmem : '/' ∈ body := mem_of_getLast?_eq hlast
    have hb2 : body.dropWhile (· = '/') = body := dropWhile_slash_eq_self body hhead
    have hb4 : '/' ∈ body ++ ['*', '*'] := List.mem_append_left _ hmem
    cases neg with
    | false =>
      have hb0 : List.isPrefixOf ['!'] body = false := by
        cases body with
        | nil => rfl
        | cons c cs =>
          rw [bang_isPrefixOf_cons]
          exact beq_eq_false_iff_ne.mpr fun e =>
            (hbang rfl) (by rw [List.head?_cons, ← e])
      simp [_normalize_git_line, hb0, hdot, hb2, hlast, hb4]
    | true =>
      have hbT : List.isPrefixOf ['!'] ('!' :: body) = true := by
        rw [bang_isPrefixOf_cons]; rfl
      simp [_normalize_git_line, hbT, hdot, hb2, hlast, hb4]
  · intro dir rest hne hplain
    obtain ⟨d0, dir', rfl⟩ : ∃ d0 dir', dir = d0 :: dir' := by
      cases dir with
      | nil => exact absurd rfl hne
      | cons d0 dir' => exact ⟨d0, dir', rfl⟩
    have hp0 := hplain d0 (by simp)
    have hslash : ∀ s ∈ (d0 :: dir') ++ [['*', '*']], '/' ∉ s := by
      intro s hs
      rcases List.mem_append.mp hs with h1 | h2
      · exact fun hc => ((hplain s h1).2 '/' hc).2.2.2 rfl
      · simp only [List.mem_singleton] at h2
        subst h2
        decide
    have hjoin : joinSegs (d0 :: dir') ++ ['/', '*', '*']
        = joinSegs ((d0 :: dir') ++ [['*', '*']]) :=
      (joinSegs_append_one (d0 :: dir') ['*', '*'] (by simp)).symm
    have hsp : splitCh (joinSegs ((d0 :: dir') ++ [['*', '*']]))
        = (d0 :: dir') ++ [['*', '*']] :=
      splitCh_joinSegs _ (by simp) hslash
    have hbangf : List.isPrefixOf ['!']
        (joinSegs ((d0 :: dir') ++ [['*', '*']])) = false := by
      rw [List.cons_append]
      exact bang_join d0 (dir' ++ [['*', '*']]) hp0.1
        (head?_ne_of_not_mem fun hc => ((hp0.2 '!' hc)).1 rfl)
    have hmatch : segsMatch ((d0 :: dir') ++ [['*', '*']]) ((d0 :: dir') ++ rest)
        = true :=
      segsMatch_ss_right (segsMatch_refl (d0 :: dir') hplain) rest
    rw [hjoin]
    simp only [compileLine, hbangf, Bool.false_eq_true, if_false, ite_false, hsp,
      specIgnores, List.foldl_cons, List.foldl_nil, hmatch, if_true, ite_true,
      Bool.not_false]

theorem claim_C3_w :
    _normalize_git_line ((if false then ['!'] else []) ++ "build/".data)
      = (if false then ['!'] else []) ++ "build/".data ++ ['*', '*'] ∧
    specIgnores [compileLine (joinSegs ["build".data] ++ ['/', '*', '*'])]
      (["build".data] ++ []) = true ∧
    specIgnores [compileLine (joinSegs ["build".data] ++ ['/', '*', '*'])]
      (["build".data] ++ ["sub".data, "a.txt".data]) = true :=
  ⟨claim_C3.1 false "build/".data (by decide) (by decide) (by decide) (by decide),
   claim_C3.2 ["build".data] [] (by decide) (by decide),
   claim_C3.2 ["build".data] ["sub".data, "a.txt".data] (by decide) (by decide)⟩

/-- C6: a line whose body (after stripping a negation marker, `./`, and
leading `/`) has no path separator is normalized by prefixing the
recursive-match prefix `**/`, and a compiled pattern of the shape `**/mask`
matches a file whose name matches the mask at any directory depth. -/
theorem claim_C6 :
    (∀ (neg : Bool) (body : Str), '/' ∉ body →
      (neg = false → body.head? ≠ some '!') →
      _normalize_git_line ((if neg then ['!'] else []) ++ body)
        = (if neg then ['!'] else []) ++ ('*' :: '*' :: '/' :: body)) ∧
    (∀ (mask f : Str) (dirs : List Str), '/' ∉ mask → mask ≠ [] →
      mask.head? ≠ some '!' → charsMatch mask f = true →
      specIgnores [compileLine ('*' :: '*' :: '/' :: mask)] (dirs ++ [f])
        = true) := by
  constructor
  · intro neg body hsl hbang
    have hb1 : List.isPrefixOf ['.', '/'] body = false :=
      dotSlash_isPrefixOf_false body hsl
    have hb2 : body.dropWhile (· = '/') = body :=
      dropWhile_slash_eq_self body (head?_ne_of_not_mem hsl)
    have hb3 : body.getLast? ≠ some '/' := fun e => hsl (mem_of_getLast?_eq e)
    cases neg with
    | false =>
      have hb0 : List.isPrefixOf ['!'] body = false := by
        cases body with
        | nil => rfl
        | cons c cs =>
          rw [bang_isPrefixOf_cons]
          exact beq_eq_false_iff_ne.mpr fun e =>
            (hbang rfl) (by rw [List.head?_cons, ← e])
      simp [_normalize_git_line, hb0, hb1, hb2, hb3, hsl]
    | true =>
      have hbT : List.isPrefixOf ['!'] ('!' :: body) = true := by
        rw [bang_isPrefixOf_cons]; rfl
      simp [_normalize_git_line, hbT, hb1, hb2, hb3, hsl]
  · intro mask f dirs hsl hne hbang hcm
    have hb : List.isPrefixOf ['!'] ('*' :: '*' :: '/' :: mask) = false := by
      rw [bang_isPrefixOf_cons]; rfl
    have hsp : splitCh ('*' :: '*' :: '/' :: mask) = [['*', '*'], mask] := by
      rw [show ('*' :: '*' :: '/' :: mask) = ['*', '*'] ++ '/' :: mask from rfl,
        splitCh_append_slash _ _ (by decide), splitCh_no_slash mask hsl]
    have hsm : segsMatch [mask] [f] = true := by
      by_cases hm : mask = ['*', '*']
      · subst hm; simp [segsMatch, orSuffixes]
      · simp [segsMatch, hm, hcm]
    have hmatch : segsMatch [['*', '*'], mask] (dirs ++ [f]) = true :=
      segsMatch_ss_left hsm dirs
    simp [compileLine, hb, hsp, specIgnores, hmatch]

theorem claim_C6_w :
    _normalize_git_line ((if false then ['!'] else []) ++ "*.log".data)
      = (if false then ['!'] else []) ++ ('*' :: '*' :: '/' :: "*.log".data) ∧
    specIgnores [compileLine ('*' :: '*' :: '/' :: "*.log".data)]
      (["a".data, "b".data] ++ ["app.log".data]) = true :=
  ⟨claim_C6.1 false "*.log".data (by decide) (by decide),
   claim_C6.2 "*.log".data "app.log".data ["a".data, "b".data]
     (by decide) (by decide) (by decide) (by decide)⟩

/-- C4: when the override parameter strips and lowercases to `"false"`, the
build returns no matcher, and the resulting isIgnored predicate is false on
every path, whatever ignore files are present. -/
theorem claim_C4 (fs : FS) (target cwd : AbsPath) (g : Str)
    (h : pyLower (pyStrip g) = "false".data) :
    build_composite_ignore fs target cwd (some g) = .ok none ∧
    ∀ p, isIgnoredPred (runBuild fs target cwd (some g)) p = false := by
  have hfp : isFalseParam (some g) = true := by simp [isFalseParam, h]
  refine ⟨by simp [build_composite_ignore, hfp], fun p => ?_⟩
  simp [runBuild, build_composite_ignore, hfp, isIgnoredPred]

theorem claim_C4_w :
    build_composite_ignore (fun _ => none) [] [] (some " FaLsE ".data) = .ok none ∧
    isIgnoredPred (runBuild (fun _ => none) [] [] (some " FaLsE ".data))
      ["x".data] = false :=
  ⟨(claim_C4 (fun _ => none) [] [] " FaLsE ".data (by decide)).1,
   (claim_C4 (fun _ => none) [] [] " FaLsE ".data (by decide)).2 ["x".data]⟩

/-- C5: rebasing adds no prefix when base equals anchor; otherwise it
prefixes the body after the preserved negation marker with the
anchor-to-base relative posix path and `/`; a base outside the anchor
leaves the pattern unprefixed; and the pattern `foo` from
`root/sub/.gitignore` rebased to anchor `root` matches `root/sub/foo` but
not `root/foo`. -/
theorem claim_C5 :
    (∀ (pat : Str) (base anchor : AbsPath), base = anchor →
      _rebase_pattern_to_anchor pat base anchor = pat) ∧
    (∀ (pat : Str) (base anchor : AbsPath) (segs : List Str),
      relTo base anchor = some segs → segs ≠ [] →
      _rebase_pattern_to_anchor pat base anchor =
        if List.isPrefixOf ['!'] pat then '!' :: (joinSegs segs ++ '/' :: pat.drop 1)
        else joinSegs segs ++ '/' :: pat) ∧
    (∀ (pat : Str) (base anchor : AbsPath), relTo base anchor = none →
      _rebase_pattern_to_anchor pat base anchor = pat) ∧
    (specIgnores [compileLine (_rebase_pattern_to_anchor
        (_normalize_git_line "foo".data) ["root".data, "sub".data] ["root".data])]
        ["sub".data, "foo".data] = true ∧
     specIgnores [compileLine (_rebase_pattern_to_anchor
        (_normalize_git_line "foo".data) ["root".data, "sub".data] ["root".data])]
        ["foo".data] = false) := by
  refine ⟨fun pat base anchor h => ?_, fun pat base anchor segs h hne => ?_,
    fun pat base anchor h => ?_, by decide, by decide⟩
  · subst h
    by_cases hb : List.isPrefixOf ['!'] pat = true
    · rw [bang_shape pat hb]
      simp [_rebase_pattern_to_anchor, relTo_self]
    · simp [_rebase_pattern_to_anchor, relTo_self, hb]
  · cases segs with
    | nil => exact absurd rfl hne
    | cons s ss =>
      by_cases hb : List.isPrefixOf ['!'] pat = true
      · simp [_rebase_pattern_to_anchor, h, hb, List.append_assoc]
      · simp [_rebase_pattern_to_anchor, h, hb, List.append_assoc]
  · by_cases hb : List.isPrefixOf ['!'] pat = true
    · rw [bang_shape pat hb]
      simp [_rebase_pattern_to_anchor, h]
    · simp [_rebase_pattern_to_anchor, h, hb]

theorem claim_C5_w :
    _rebase_pattern_to_anchor "a".data ["r".data] ["r".data] = "a".data ∧
    _rebase_pattern_to_anchor "!a".data ["r".data, "s".data] ["r".data] =
      (if List.isPrefixOf ['!'] "!a".data then
        '!' :: (joinSegs ["s".data] ++ '/' :: "!a".data.drop 1)
       else joinSegs ["s".data] ++ '/' :: "!a".data) ∧
    _rebase_pattern_to_anchor "a".data ["x".data] ["y".data] = "a".data :=
  ⟨claim_C5.1 "a".data ["r".data] ["r".data] rfl,
   claim_C5.2.1 "!a".data ["r".data, "s".data] ["r".data] ["s".data]
     (by decide) (by decide),
   claim_C5.2.2.1 "a".data ["x".data] ["y".data] (by decide)⟩

/-- C7: a query path that cannot be resolved relative to the matcher's
anchor is reported as not ignored (fail-open), leaving the matcher
unchanged rather than raising. -/
theorem claim_C7 (m : CompositeIgnore) (p : AbsPath)
    (h : relTo p m.anchor = none) : m.matches p = (false, m) := by
  simp [CompositeIgnore.matches, h]

theorem claim_C7_w :
    (CompositeIgnore.mk [] [] ["a".data] []).matches ["b".data]
      = (false, CompositeIgnore.mk [] [] ["a".data] []) :=
  claim_C7 (CompositeIgnore.mk [] [] ["a".data] []) ["b".data] (by decide)

/-- Point update of the filesystem model. -/
def updFS (fs : FS) (p : AbsPath) (c : Option (List Str)) : FS :=
  fun q => if q = p then some c else fs q

theorem collect_along_congr (fs₁ fs₂ : FS)
    (h : ∀ p, (fs₁ p).isSome = (fs₂ p).isSome) (start end_ : AbsPath) :
    collect_ignore_files_along_path fs₁ start end_
      = collect_ignore_files_along_path fs₂ start end_ := by
  unfold collect_ignore_files_along_path
  cases relTo end_ start with
  | none => rfl
  | some rel => simp only [h]

theorem collect_anc_congr (fs₁ fs₂ : FS)
    (h : ∀ p, (fs₁ p).isSome = (fs₂ p).isSome) (dir : AbsPath) :
    collect_ignore_files_from_ancestors fs₁ dir
      = collect_ignore_files_from_ancestors fs₂ dir := by
  unfold collect_ignore_files_from_ancestors
  simp only [h]

theorem discover_congr (fs₁ fs₂ : FS)
    (h : ∀ p, (fs₁ p).isSome = (fs₂ p).isSome) (t c : AbsPath) (g : Option Str) :
    discover_files fs₁ t c g = discover_files fs₂ t c g := by
  unfold discover_files
  cases g with
  | none =>
    cases relTo t c with
    | none => exact collect_anc_congr fs₁ fs₂ h t
    | some _ => exact collect_along_congr fs₁ fs₂ h c t
  | some s =>
    by_cases hs : s = []
    · subst hs
      simp only [ne_eq, not_true_eq_false, if_false, ite_false]
      cases relTo t c with
      | none => exact collect_anc_congr fs₁ fs₂ h t
      | some _ => exact collect_along_congr fs₁ fs₂ h c t
    · simp only [ne_eq, hs, not_false_eq_true, if_true, ite_true]
      exact collect_anc_congr fs₁ fs₂ h (pathFromString c s)

theorem read_unreadable_congr (fs : FS) (f : AbsPath) (hf : fs f = some none)
    (q : AbsPath) :
    _read_lines (updFS fs f (some [])) q = _read_lines fs q := by
  unfold _read_lines updFS
  by_cases hq : q = f
  · subst hq
    rw [if_pos rfl, hf]
    rfl
  · rw [if_neg hq]

/-- C8: an ignore file that exists but cannot be read contributes exactly
zero patterns: the whole build (discovery, anchor, ordered pattern list,
diagnostics) is identical to the build where that file reads as empty, and
the diagnostics list of a successful build is exactly the discovery list,
in which the unreadable file still participates. -/
theorem claim_C8 (fs : FS) (target cwd : AbsPath) (g : Option Str) (f : AbsPath)
    (hf : fs f = some none) :
    build_composite_ignore (updFS fs f (some [])) target cwd g
      = build_composite_ignore fs target cwd g ∧
    (∀ m, build_composite_ignore fs target cwd g = .ok (some m) →
      m.all_files = discover_files fs target cwd g) := by
  have hsome : ∀ p, ((updFS fs f (some [])) p).isSome = (fs p).isSome := by
    intro p
    unfold updFS
    by_cases hp : p = f
    · subst hp; rw [if_pos rfl, hf]; rfl
    · rw [if_neg hp]
  have hdisc : discover_files (updFS fs f (some [])) target cwd g
      = discover_files fs target cwd g := discover_congr _ _ hsome target cwd g
  have hcomp : ∀ (files : List AbsPath) (anchor : AbsPath),
      compile_combined (updFS fs f (some [])) files anchor
        = compile_combined fs files anchor := by
    intro files anchor
    unfold compile_combined
    have hfun : (fun f' => (_read_lines (updFS fs f (some [])) f').map
        (fun s => _rebase_pattern_to_anchor (_normalize_git_line s) (parentDir f') anchor))
        = (fun f' => (_read_lines fs f').map
        (fun s => _rebase_pattern_to_anchor (_normalize_git_line s) (parentDir f') anchor)) := by
      funext f'
      rw [read_unreadable_congr fs f hf f']
    rw [hfun]
  constructor
  · unfold build_composite_ignore
    rw [hdisc]
    simp only [hcomp]
  · intro m hm
    unfold build_composite_ignore at hm
    by_cases hfp : isFalseParam g = true
    · rw [if_pos hfp] at hm
      simp at hm
    · rw [if_neg hfp] at hm
      cases hfiles : discover_files fs target cwd g with
      | nil => simp only [hfiles] at hm; simp at hm
      | cons a as =>
        obtain ⟨anc, hanc⟩ := _common_anchor_ok cwd ((a :: as).map parentDir) (by simp)
        simp only [hfiles, List.isEmpty_cons, Bool.false_eq_true, if_false,
          ite_false, hanc, Except.ok.injEq, Option.some.injEq] at hm
        rw [← hm]

/-- Scenario filesystem for the read-failure scenario: a single present but
unreadable ignore file at the filesystem root. -/
def c8_fs : FS := fun p => if p = [".gitignore".data] then some none else none

theorem claim_C8_w :
    build_composite_ignore (updFS c8_fs [".gitignore".data] (some [])) [] [] none
      = build_composite_ignore c8_fs [] [] none :=
  (claim_C8 c8_fs [] [] none [".gitignore".data] (by decide)).1

/-- Cache coherence invariant: every cached entry equals what evaluating
the compiled pattern set on that key computes.  It holds for the freshly
built matcher (empty cache) and is preserved by every query. -/
def CacheOK (m : CompositeIgnore) : Prop :=
  ∀ kv ∈ m.cache, kv.2 = engineMatch m.spec kv.1

instance : DecidablePred CacheOK := fun m => by
  unfold CacheOK; exact inferInstance

/-- The pure, cache-free value of a query: resolve the path relative to
the anchor (false when that fails) and evaluate the compiled pattern set
on the relative posix path. -/
def evalPure (m : CompositeIgnore) (p : AbsPath) : Bool :=
  match relTo p m.anchor with
  | none => false
  | some segs => engineMatch m.spec (relStr segs)

/-- C9: for a matcher whose cache is coherent, `matches` returns exactly
the value the compiled pattern set computes (so a cache hit equals the
cache-miss computation), preserves coherence, and is idempotent: the
repeated query returns the same boolean and leaves the matcher unchanged. -/
theorem claim_C9 (m : CompositeIgnore) (p : AbsPath) (h : CacheOK m) :
    (m.matches p).1 = evalPure m p ∧
    CacheOK (m.matches p).2 ∧
    ((m.matches p).2).matches p = ((m.matches p).1, (m.matches p).2) := by
  cases hrel : relTo p m.anchor with
  | none =>
    have hm : m.matches p = (false, m) := by
      simp [CompositeIgnore.matches, hrel]
    rw [hm]
    exact ⟨by simp [evalPure, hrel], h, hm⟩
  | some segs =>
    cases hc : cacheGet m.cache (relStr segs) with
    | some b =>
      have hm : m.matches p = (b, m) := by
        simp [CompositeIgnore.matches, hrel, hc]
      have hval : b = engineMatch m.spec (relStr segs) := by
        unfold cacheGet at hc
        cases hfd : m.cache.find? (fun kv => kv.1 == relStr segs) with
        | none => rw [hfd] at hc; simp at hc
        | some kv =>
          rw [hfd] at hc
          have hc2 : kv.2 = b := by simpa using hc
          have hmem : kv ∈ m.cache := List.mem_of_find?_eq_some hfd
          have hpred := List.find?_some hfd
          have hkey : kv.1 = relStr segs := beq_iff_eq.mp hpred
          rw [← hc2, h kv hmem, hkey]
      rw [hm]
      exact ⟨by simp [evalPure, hrel, hval], h, by simp [CompositeIgnore.matches, hrel, hc]⟩
    | none =>
      have hm : m.matches p =
          (engineMatch m.spec (relStr segs),
            { m with cache := (relStr segs, engineMatch m.spec (relStr segs)) :: m.cache }) := by
        simp [CompositeIgnore.matches, hrel, hc]
      rw [hm]
      refine ⟨by simp [evalPure, hrel], ?_, ?_⟩
      · intro kv hkv
        rcases List.mem_cons.mp hkv with h1 | h2
        · rw [h1]
        · exact h kv h2
      · simp [CompositeIgnore.matches, hrel, cacheGet]

theorem claim_C9_w :
    ((CompositeIgnore.mk [⟨false, ["a".data]⟩] [] ["r".data] [("a".data, true)]).matches
        ["r".data, "a".data]).1
      = evalPure (CompositeIgnore.mk [⟨false, ["a".data]⟩] [] ["r".data] [("a".data, true)])
          ["r".data, "a".data] ∧
    ((CompositeIgnore.mk [⟨false, ["a".data]⟩] [] ["r".data] [("a".data, true)]).matches
        ["r".data, "a".data]).2.matches ["r".data, "a".data]
      = (((CompositeIgnore.mk [⟨false, ["a".data]⟩] [] ["r".data] [("a".data, true)]).matches
          ["r".data, "a".data]).1,
         ((CompositeIgnore.mk [⟨false, ["a".data]⟩] [] ["r".data] [("a".data, true)]).matches
          ["r".data, "a".data]).2) :=
  ⟨(claim_C9 _ _ (by decide)).1, (claim_C9 _ _ (by decide)).2.2⟩

/-- C10: every kept ignore-file line is exactly its own
whitespace-stripped form (stripping is idempotent on the output, so
surrounding whitespace never survives), is non-blank, and is not a
comment; a whitespace-only line or an indented comment line contributes
nothing. -/
theorem claim_C10 :
    (∀ (fs : FS) (p : AbsPath) (s : Str), s ∈ _read_lines fs p →
      pyStrip s = s ∧ s ≠ [] ∧ List.isPrefixOf ['#'] s = false) ∧
    (∀ (line : Str) (fs : FS) (p : AbsPath), fs p = some (some [line]) →
      pyStrip line = [] ∨ List.isPrefixOf ['#'] (pyStrip line) = true →
      _read_lines fs p = []) := by
  constructor
  · intro fs p s hs
    unfold _read_lines at hs
    cases hfp : fs p with
    | none => rw [hfp] at hs; simp at hs
    | some o =>
      cases o with
      | none => rw [hfp] at hs; simp at hs
      | some raw =>
        rw [hfp] at hs
        simp only [List.mem_filterMap] at hs
        obtain ⟨line, _, hsome⟩ := hs
        by_cases hcond : pyStrip line = [] ∨ List.isPrefixOf ['#'] (pyStrip line) = true
        · simp only [hcond, ite_true, if_pos] at hsome
          exact absurd hsome (by simp)
        · simp only [hcond, ite_false, if_neg, not_false_eq_true] at hsome
          have hs' : pyStrip line = s := by
            simpa using hsome
          push_neg at hcond
          refine ⟨?_, ?_, ?_⟩
          · rw [← hs', pyStrip_idem]
          · rw [← hs']; exact hcond.1
          · rw [← hs']
            exact Bool.not_eq_true _ ▸ hcond.2
  · intro line fs p hfp hcond
    unfold _read_lines
    rw [hfp]
    simp only [List.filterMap_cons, List.filterMap_nil]
    rw [if_pos hcond]

theorem claim_C10_w :
    (pyStrip "a".data = "a".data ∧ "a".data ≠ [] ∧
      List.isPrefixOf ['#'] "a".data = false) ∧
    _read_lines (fun _ => some (some ["   ".data])) [] = [] ∧
    _read_lines (fun _ => some (some ["  # note".data])) [] = [] :=
  ⟨claim_C10.1 (fun _ => some (some ["  a  ".data])) [] "a".data (by decide),
   claim_C10.2 "   ".data (fun _ => some (some ["   ".data])) [] rfl (by decide),
   claim_C10.2 "  # note".data (fun _ => some (some ["  # note".data])) [] rfl
     (by decide)⟩

end FastIngest
